import Mathlib

/-!
# Verification of the DistributedSBP partition core

Shallow embedding of
`src/StochasticBlockPartition/code/python/utils/cpp/partition/partition.cpp`.

Modelling conventions:
* Eigen integer vectors (`Vector = Eigen::VectorXi`) are modelled as `List Int`;
  real-valued vectors (`Eigen::VectorXd`) as `List Rat` (floating point is out of
  scope; only order comparisons on scores are ever performed by the code).
* The sparse aggregate matrix (`BoostMappedMatrix`) is modelled as a dense
  `List (List Int)`; the source only needs point increment, point read and copy.
* Plain C++ vector reads/writes are total here, with out-of-range reads giving a
  default and out-of-range writes dropped; theorems about these functions carry
  in-bounds hypotheses (or evaluate in-bounds runs only) so that they speak only
  about executions on which the C++ has defined behaviour.
  `carry_out_best_merges`, whose claims concern out-of-range accesses
  themselves, instead uses checked access in the `Except` monad so an
  out-of-bounds access becomes an observable error value.
-/

/-- Read element `i` of a list, returning default `d` out of range
(models reading an Eigen coefficient at a nonnegative index). -/
def nth {α : Type} (d : α) : List α → Nat → α
  | [], _ => d
  | a :: _, 0 => a
  | _ :: l, n + 1 => nth d l n

/-- Write element `i` of a list; out of range the list is unchanged. -/
def updv {α : Type} : List α → Nat → α → List α
  | [], _, _ => []
  | _ :: l, 0, x => x :: l
  | a :: l, n + 1, x => a :: updv l n x

/-- `v[i]` for a C++ `int` index `i` on an int vector (0 out of range). -/
def geti (v : List Int) (i : Int) : Int :=
  if 0 ≤ i then nth 0 v i.toNat else 0

/-- `v[i] = x` for a C++ `int` index `i` (no-op out of range). -/
def seti (v : List Int) (i : Int) (x : Int) : List Int :=
  if 0 ≤ i then updv v i.toNat x else v

/-- `v[i] += w`. -/
def bump (v : List Int) (i w : Int) : List Int :=
  seti v i (geti v i + w)

/-- Elementwise sum of two equally sized vectors (Eigen `operator+`). -/
def vecAdd (a b : List Int) : List Int := List.zipWith (· + ·) a b

/-- A zeroed `n × n` matrix (`BoostMappedMatrix(n, n)`). -/
def zeroMatrix (n : Nat) : List (List Int) :=
  List.replicate n (List.replicate n 0)

/-- `M.add(i, j, w)`: point increment of the aggregate matrix cell `(i, j)`
(no-op out of range, matching the total-vector convention above). -/
def matAdd (M : List (List Int)) (i j w : Int) : List (List Int) :=
  if 0 ≤ i then updv M i.toNat (bump (nth [] M i.toNat) j w) else M

/-- Sum of row `i` of a matrix. -/
def rowSum (M : List (List Int)) (i : Nat) : Int := (nth [] M i).sum

/-- Sum of column `j` of a matrix. -/
def colSum (M : List (List Int)) (j : Nat) : Int :=
  (M.map (fun r => nth 0 r j)).sum

/-- The `Partition` aggregate of partition.hpp.  `float`/`double` scalar fields
(`block_reduction_rate`, `overall_entropy`) are modelled as `Rat`; they are only
ever copied by the code under verification. -/
structure Partition where
  num_blocks : Int
  block_assignment : List Int
  blockmodel : List (List Int)
  block_degrees_out : List Int
  block_degrees_in : List Int
  block_degrees : List Int
  block_reduction_rate : Rat
  num_blocks_to_merge : Int
  overall_entropy : Rat
deriving DecidableEq, Repr

/-- Modelled from the spec: the explicit-assignment constructor
`Partition(num_blocks, neighbors, block_reduction_rate, block_assignment)` is
declared in partition.hpp, which is not part of the given sources.  Per the
spec (§4.1, "From explicit assignment") it stores `num_blocks` and the
assignment vector as-is, with the aggregate matrix and degree vectors zeroed
until `initialize_edge_counts` runs and no merges pending. -/
def Partition.mkExplicit (num_blocks : Int) (_neighbors : List (List (Int × Int)))
    (block_reduction_rate : Rat) (block_assignment : List Int) : Partition :=
  { num_blocks := num_blocks
    block_assignment := block_assignment
    blockmodel := zeroMatrix num_blocks.toNat
    block_degrees_out := List.replicate num_blocks.toNat 0
    block_degrees_in := List.replicate num_blocks.toNat 0
    block_degrees := List.replicate num_blocks.toNat 0
    block_reduction_rate := block_reduction_rate
    num_blocks_to_merge := 0
    overall_entropy := 0 }

/-- `Partition::merge_blocks(from_block, to_block)` (partition.cpp lines 93-99):
rewrite every assignment entry equal to `from_block` to `to_block`. -/
def Partition.merge_blocks (p : Partition) (from_block to_block : Int) : Partition :=
  { p with block_assignment :=
      p.block_assignment.map (fun b => if b = from_block then to_block else b) }

/-- `Partition::copy()` (partition.cpp lines 44-54): builds a fresh partition
via the three-argument constructor (which passes `num_blocks` and
`block_reduction_rate` through unchanged), then overwrites every remaining
field with a deep copy of the original's value and resets the pending-merge
count to zero. -/
def Partition.copy (p : Partition) : Partition :=
  { num_blocks := p.num_blocks
    block_assignment := p.block_assignment
    blockmodel := p.blockmodel
    block_degrees_out := p.block_degrees_out
    block_degrees_in := p.block_degrees_in
    block_degrees := p.block_degrees
    block_reduction_rate := p.block_reduction_rate
    num_blocks_to_merge := 0
    overall_entropy := p.overall_entropy }

/-- One step of the inner loop of `initialize_edge_counts` (partition.cpp
lines 11-22) acting on the state `(blockmodel, block_degrees_out,
block_degrees_in)` for vertex `v` and adjacency row entry `r = (neighbor,
weight)`:

    blockmodel.add(block, neighbor_block, weight);
    block_degrees_out[block] += weight;
    block_degrees_in[neighbor] += weight;   // keyed by the neighbor VERTEX id

where `block = block_assignment[v]` and `neighbor_block =
block_assignment[neighbor]`. -/
def initStep (assign : List Int) (v : Nat)
    (st : List (List Int) × List Int × List Int) (r : Int × Int) :
    List (List Int) × List Int × List Int :=
  (matAdd st.1 (geti assign v) (geti assign r.1) r.2,
   bump st.2.1 (geti assign v) r.2,
   bump st.2.2 r.1 r.2)

/-- The nested vertex/neighbor loop of `initialize_edge_counts` (partition.cpp
lines 6-23).  `v` is the running vertex counter; a vertex with an empty
adjacency row contributes nothing (the `continue` for `rows() == 0` is
subsumed by an empty inner loop). -/
def initPass (assign : List Int) :
    List (List (Int × Int)) → Nat → (List (List Int) × List Int × List Int) →
    List (List Int) × List Int × List Int
  | [], _, st => st
  | rows :: rest, v, st => initPass assign rest (v + 1) (rows.foldl (initStep assign v) st)

/-- `Partition::initialize_edge_counts(neighbors)` (partition.cpp lines 3-26):
replaces `blockmodel` by a freshly zeroed `num_blocks × num_blocks` matrix,
accumulates edge weights into it and into the degree vectors (which are NOT
reset), then sets `block_degrees = block_degrees_out + block_degrees_in`. -/
def Partition.initialize_edge_counts (p : Partition)
    (neighbors : List (List (Int × Int))) : Partition :=
  let st := initPass p.block_assignment neighbors 0
    (zeroMatrix p.num_blocks.toNat, p.block_degrees_out, p.block_degrees_in)
  { p with blockmodel := st.1
           block_degrees_out := st.2.1
           block_degrees_in := st.2.2
           block_degrees := vecAdd st.2.1 st.2.2 }

/-- The second loop of `clone_with_true_block_membership` (partition.cpp lines
36-40): count the entries of `uniques` equal to 1. -/
def countOnes (u : List Int) : Int :=
  u.foldl (fun acc x => if x = 1 then acc + 1 else acc) 0

/-- `Partition::clone_with_true_block_membership(neighbors,
true_block_membership)` (partition.cpp lines 28-42): mark
`uniques[membership] = 1` for every membership value over a zero vector sized
by the membership vector itself, count the marks, and delegate to the
explicit-assignment constructor. -/
def Partition.clone_with_true_block_membership (p : Partition)
    (neighbors : List (List (Int × Int))) (true_block_membership : List Int) :
    Partition :=
  let uniques := true_block_membership.foldl (fun u m => seti u m 1)
    (List.replicate true_block_membership.length 0)
  Partition.mkExplicit (countOnes uniques) neighbors p.block_reduction_rate
    true_block_membership

/-- Index of the first maximal coefficient of a nonempty vector
(Eigen `maxCoeff(&index)`; ties resolve to the first maximum).
Defined as 0 on the empty vector, on which Eigen has no defined result. -/
def argmaxAux (bi : Int) (bv : Int) (i : Int) : List Int → Int
  | [] => bi
  | y :: r => if y > bv then argmaxAux i y (i + 1) r else argmaxAux bi bv (i + 1) r

/-- See `argmaxAux`. -/
def argmaxFirst : List Int → Int
  | [] => 0
  | x :: rest => argmaxAux 0 x 1 rest

/-- `Partition::from_sample(num_blocks, neighbors, sample_block_membership,
mapping, block_reduction_rate)` (partition.cpp lines 56-91).  The initial
assignment vector is `Vector::Constant(num_blocks, -1)` — length `num_blocks`,
exactly as the source writes it.  `std::map<int,int>` iteration is modelled as
iteration over an association list (std::map iterates its unique keys in
sorted order; concrete evaluations below use sorted unique keys). -/
def Partition.from_sample (num_blocks : Int) (neighbors : List (List (Int × Int)))
    (sample_block_membership : List Int) (mapping : List (Int × Int))
    (block_reduction_rate : Rat) : Partition :=
  -- Fill in initial block assignment
  let asg0 := List.replicate num_blocks.toNat (-1 : Int)
  let asg1 := mapping.foldl
    (fun asg item => seti asg item.1 (geti sample_block_membership item.2)) asg0
  -- Every unassigned block gets assigned to the next block number
  let asg2next := (List.range neighbors.length).foldl
    (fun st (v : Nat) =>
      if 0 ≤ geti st.1 (v : Int) then st
      else (seti st.1 (v : Int) st.2, st.2 + 1))
    (asg1, num_blocks)
  let asg2 := asg2next.1
  -- Every previously unassigned block gets assigned to the block it is most
  -- connected to
  let asg3 := (List.range neighbors.length).foldl
    (fun asg (v : Nat) =>
      if geti asg (v : Int) < num_blocks then asg
      else
        let counts := (nth [] neighbors v).foldl
          (fun counts r =>
            let neighbor_block := geti asg r.1
            if neighbor_block < num_blocks then bump counts neighbor_block 1
            else counts)
          (List.replicate num_blocks.toNat 0)
        seti asg (v : Int) (argmaxFirst counts))
    asg2
  Partition.mkExplicit num_blocks neighbors block_reduction_rate asg3

/-- Eigen's `Vector::LinSpaced(size, low, high)` (integer path, multiplier
regime): a vector of exactly `size` coefficients, coefficient `i` being
`low + i * ((high - low) / (size - 1))`.  Both call sites in partition.cpp
(lines 103 and 116) invoke it with `size = 1`, for which the result is the
one-element vector `[low]`. -/
def linSpaced (size : Nat) (low high : Int) : List Int :=
  (List.range size).map
    (fun i => low + (i : Int) * ((high - low) / (max 1 ((size : Int) - 1))))

/-- Score of candidate index `i` in the comparator of `sort_indices`:
`unsorted[i]`. -/
def scoreAt (scores : List Rat) (i : Int) : Rat :=
  if 0 ≤ i then nth 0 scores i.toNat else 0

/-- Insert index `i` into an index list kept in descending score order
(the comparator `unsorted[i1] > unsorted[i2]` of partition.cpp line 108). -/
def insertDesc (scores : List Rat) (i : Int) : List Int → List Int
  | [] => [i]
  | j :: rest =>
      if scoreAt scores i > scoreAt scores j then i :: j :: rest
      else j :: insertDesc scores i rest

/-- A sort of an index list by strictly descending score, one valid result of
`std::sort` with the comparator of partition.cpp line 108 (the order among
equal-scored indices is unspecified by `std::sort`; the only list the source
ever sorts is the single-element `LinSpaced(1, 0, n-1)`, where every sort
agrees). -/
def sortDesc (scores : List Rat) (l : List Int) : List Int :=
  l.foldr (insertDesc scores) []

/-- `sort_indices(unsorted)` (partition.cpp lines 101-112): initialize the
index vector as `Vector::LinSpaced(1, 0, unsorted.size() - 1)` and sort it by
descending score. -/
def sort_indices (unsorted : List Rat) : List Int :=
  let indices := linSpaced 1 0 ((unsorted.length : Int) - 1)
  sortDesc unsorted indices

/-- Observable failures of the merge procedure: an out-of-range Eigen
coefficient access (undefined behaviour in the C++), or fuel exhaustion of the
modelled loop (never reached: the loop's candidate counter strictly increases
and access is checked, so `best_merges.length + 1` iterations always suffice). -/
inductive AccessError where
  | oob
  | fuel
deriving DecidableEq, Repr

/-- Checked read `v[i]`. -/
def getE (v : List Int) (i : Int) : Except AccessError Int :=
  if 0 ≤ i ∧ i.toNat < v.length then .ok (nth 0 v i.toNat) else .error .oob

/-- Checked write `v[i] = x`. -/
def setE (v : List Int) (i x : Int) : Except AccessError (List Int) :=
  if 0 ≤ i ∧ i.toNat < v.length then .ok (updv v i.toNat x) else .error .oob

/-- State of the merge-selection loop of `carry_out_best_merges`
(partition.cpp lines 116-133). -/
structure MergeState where
  block_map : List Int
  assignment : List Int
  num_merged : Int
  counter : Int

/-- The merge-selection loop (partition.cpp lines 119-133):

    while (num_merged < num_blocks_to_merge) {
        int merge_from = best_merges[counter];
        int merge_to = block_map[best_merge_for_each_block[merge_from]];
        counter++;
        if (merge_to != merge_from) { redirect block_map; merge_blocks; num_merged++; }
    }

Every coefficient access is checked; the fuel argument only bounds the
modelled recursion (see `AccessError.fuel`). -/
def mergeLoop (best_merges best_merge_for_each_block : List Int)
    (num_blocks_to_merge : Int) :
    Nat → MergeState → Except AccessError MergeState
  | 0, st => if st.num_merged < num_blocks_to_merge then .error .fuel else .ok st
  | fuel + 1, st =>
    if st.num_merged < num_blocks_to_merge then do
      let merge_from ← getE best_merges st.counter
      let proposed ← getE best_merge_for_each_block merge_from
      let merge_to ← getE st.block_map proposed
      if merge_to ≠ merge_from then
        mergeLoop best_merges best_merge_for_each_block num_blocks_to_merge fuel
          { block_map := st.block_map.map
              (fun b => if b = merge_from then merge_to else b)
            assignment := st.assignment.map
              (fun b => if b = merge_from then merge_to else b)
            num_merged := st.num_merged + 1
            counter := st.counter + 1 }
      else
        mergeLoop best_merges best_merge_for_each_block num_blocks_to_merge fuel
          { st with counter := st.counter + 1 }
    else .ok st

/-- `std::unique` over the whole vector (partition.cpp line 135) keeps the
first element of every run of consecutive equal values; only consecutive
duplicates are removed. -/
def dropRun (prev : Int) : List Int → List Int
  | [] => []
  | b :: rest => if b = prev then dropRun prev rest else b :: dropRun b rest

/-- See `dropRun`.  The subsequent `resize` (partition.cpp line 136) is read
charitably as retaining exactly the `std::unique` prefix (Eigen's destructive
`resize` does not actually promise to preserve coefficients; the claims fail
already under this reading most favourable to them). -/
def uniqueConsecutive : List Int → List Int
  | [] => []
  | a :: rest => a :: dropRun a rest

/-- Building the compaction map (partition.cpp lines 137-144):
`mapping = Vector::Constant(num_blocks, -1)`, then `mapping[rem_block] =
counter++` for each retained block value in order. -/
def buildMapping : List Int → Int → List Int → Except AccessError (List Int)
  | [], _, mapping => .ok mapping
  | r :: rest, counter, mapping => do
      let mapping' ← setE mapping r counter
      buildMapping rest (counter + 1) mapping'

/-- The write-back loop of the compaction (partition.cpp lines 146-150):

    for (uint i = 0; i < block_assignment.size(); ++i) {
        int block = this->block_assignment[i];
        int new_block = mapping[block];
        this->block_assignment[block] = new_block;   // indexed by block VALUE
    }
-/
def rewriteLoop (mapping : List Int) :
    List Nat → List Int → Except AccessError (List Int)
  | [], assignment => .ok assignment
  | i :: rest, assignment => do
      let block ← getE assignment (i : Int)
      let new_block ← getE mapping block
      let assignment' ← setE assignment block new_block
      rewriteLoop mapping rest assignment'

/-- `Partition::carry_out_best_merges(delta_entropy_for_each_block,
best_merge_for_each_block)` (partition.cpp lines 114-152). -/
def Partition.carry_out_best_merges (p : Partition)
    (delta_entropy_for_each_block : List Rat)
    (best_merge_for_each_block : List Int) : Except AccessError Partition := do
  let best_merges := sort_indices delta_entropy_for_each_block
  let block_map := linSpaced 1 0 (p.num_blocks - 1)
  let st ← mergeLoop best_merges best_merge_for_each_block p.num_blocks_to_merge
    (best_merges.length + 1)
    { block_map := block_map, assignment := p.block_assignment
      num_merged := 0, counter := 0 }
  let remaining_blocks := uniqueConsecutive st.assignment
  let mapping ← buildMapping remaining_blocks 0
    (List.replicate p.num_blocks.toNat (-1 : Int))
  let assignment ← rewriteLoop mapping (List.range st.assignment.length) st.assignment
  .ok { p with block_assignment := assignment
               num_blocks := p.num_blocks - p.num_blocks_to_merge }

/-- Three vertices in two blocks (`block_assignment = [0, 1, 0]`), no merges
pending: exercises the compaction pass of `carry_out_best_merges` alone. -/
def pThreeVertex : Partition :=
  { num_blocks := 2, block_assignment := [0, 1, 0],
    blockmodel := [[0, 0], [0, 0]],
    block_degrees_out := [0, 0], block_degrees_in := [0, 0],
    block_degrees := [0, 0], block_reduction_rate := 1/2,
    num_blocks_to_merge := 0, overall_entropy := 0 }

/-- C1: refuted on the code.  With `block_assignment = [0, 1, 0]`, two blocks
and zero merges to perform, `carry_out_best_merges` must leave every vertex
with its dense compacted block id (here `[0, 1, 0]` itself).  Instead the code
returns assignment `[2, 1, 0]` with `num_blocks = 2`: `std::unique` on the
unsorted assignment retains the duplicated block id 0, so the compaction map
becomes `[2, 1]`, and the write-back indexes by block value rather than vertex
position — the result contains block id 2, outside `[0, num_blocks_new)`. -/
theorem carry_out_best_merges_miscompacts :
    Partition.carry_out_best_merges pThreeVertex [0, 0] [0, 0] =
      Except.ok { pThreeVertex with block_assignment := [2, 1, 0] } ∧
    ({ pThreeVertex with block_assignment := [2, 1, 0] } : Partition).num_blocks = 2 ∧
    ¬ (∀ b ∈ ({ pThreeVertex with block_assignment := [2, 1, 0] } :
        Partition).block_assignment, 0 ≤ b ∧ b < 2) :=
  ⟨rfl, rfl, by decide⟩

/-- Two vertices both assigned to block 0, one edge `0 → 1` of weight 1:
the input of spec §8's invariant check, small enough that every access of the
C++ stays in bounds. -/
def pTwoSelf : Partition :=
  { num_blocks := 2, block_assignment := [0, 0],
    blockmodel := [[0, 0], [0, 0]],
    block_degrees_out := [0, 0], block_degrees_in := [0, 0],
    block_degrees := [0, 0], block_reduction_rate := 1/2,
    num_blocks_to_merge := 0, overall_entropy := 0 }

/-- C2: refuted on the code.  After `initialize_edge_counts` on the edge
`0 → 1` (weight 1) with both vertices in block 0, the blockmodel is
`[[1, 0], [0, 0]]`, so column 0 sums to 1, but `block_degrees_in = [0, 1]`:
line 21 of partition.cpp accumulates the in-degree at the neighbor VERTEX id
(1) instead of the neighbor's block (0), so
`colSum blockmodel 0 ≠ block_degrees_in[0]`. -/
theorem initialize_edge_counts_in_degree_mismatch :
    (Partition.initialize_edge_counts pTwoSelf [[(1, 1)], []]).blockmodel =
      [[1, 0], [0, 0]] ∧
    (Partition.initialize_edge_counts pTwoSelf [[(1, 1)], []]).block_degrees_in =
      [0, 1] ∧
    colSum (Partition.initialize_edge_counts pTwoSelf [[(1, 1)], []]).blockmodel 0 = 1 ∧
    nth 0 (Partition.initialize_edge_counts pTwoSelf [[(1, 1)], []]).block_degrees_in 0
      = 0 ∧
    (1 : Int) ≠ 0 :=
  ⟨rfl, rfl, rfl, rfl, by decide⟩

/-- Three singleton blocks with the merge chain 0 → 1 → 2 and two merges
requested. -/
def pChain : Partition :=
  { num_blocks := 3, block_assignment := [0, 1, 2],
    blockmodel := [[0, 0, 0], [0, 0, 0], [0, 0, 0]],
    block_degrees_out := [0, 0, 0], block_degrees_in := [0, 0, 0],
    block_degrees := [0, 0, 0], block_reduction_rate := 1/2,
    num_blocks_to_merge := 2, overall_entropy := 0 }

/-- C3: refuted on the code.  For the chain "block 0 merges into 1, block 1
merges into 2" with two merges requested, resolving the first proposal already
reads `block_map[1]` — but `block_map = Vector::LinSpaced(1, 0, num_blocks-1)`
is the one-element vector `[0]` (partition.cpp line 116), so the access is out
of bounds: the code can never select two candidates, let alone collapse the
chain transitively. -/
theorem carry_out_best_merges_chain_oob :
    Partition.carry_out_best_merges pChain [0, 0, 0] [1, 2, 2] =
      Except.error AccessError.oob := rfl

/-- C4: refuted on the code.  For the two-element score vector `[0, 1]` the
walked ordering should be the descending permutation `[1, 0]`; `sort_indices`
instead returns the one-element vector `[0]`, because its index vector is
`Vector::LinSpaced(1, 0, n-1)` (a single coefficient) rather than `0..n-1`
(partition.cpp line 103). -/
theorem sort_indices_not_permutation :
    sort_indices [(0 : Rat), 1] = [0] ∧
    ¬ (sort_indices [(0 : Rat), 1]).Perm [0, 1] :=
  ⟨rfl, by decide⟩

/-- Two singleton blocks, one merge requested, but the only proposal is the
self-merge `0 → 0`: the candidate list is exhausted before any merge. -/
def pUnderflow : Partition :=
  { num_blocks := 2, block_assignment := [0, 1],
    blockmodel := [[0, 0], [0, 0]],
    block_degrees_out := [0, 0], block_degrees_in := [0, 0],
    block_degrees := [0, 0], block_reduction_rate := 1/2,
    num_blocks_to_merge := 1, overall_entropy := 0 }

/-- C5: refuted on the code.  When the candidate list is exhausted before
`num_blocks_to_merge` merges have been performed (here: the sole candidate is
a self-merge), the loop at partition.cpp lines 119-133 has no bound on
`counter` and reads `best_merges[counter]` past the end of the candidate
sequence — out-of-bounds access rather than any `MergeUnderflow` signal (no
such condition exists anywhere in the code). -/
theorem carry_out_best_merges_exhaustion_oob :
    Partition.carry_out_best_merges pUnderflow [0, 0] [0, 0] =
      Except.error AccessError.oob := rfl

/-- C6: refuted on the code.  `from_sample` with `num_blocks = 2` on a graph
of a single vertex (`V = 1`, one empty adjacency row, mapping `{0 ↦ 0}`,
sample assignment `[1]`) returns `block_assignment = [1, -1]` of length 2:
partition.cpp line 59 allocates the assignment as
`Vector::Constant(num_blocks, -1)` — length `num_blocks`, not `V`. -/
theorem from_sample_assignment_length_mismatch :
    (Partition.from_sample 2 [[]] [1] [(0, 0)] (1/2)).block_assignment = [1, -1] ∧
    (Partition.from_sample 2 [[]] [1] [(0, 0)] (1/2)).block_assignment.length = 2 ∧
    ([([] : List (Int × Int))]).length = 1 ∧ (2 : Nat) ≠ 1 :=
  ⟨rfl, rfl, rfl, by decide⟩

/-- C7: `copy()` preserves the value of every field of the partition and
resets the pending-merge count to zero.  (Freedom from shared mutable state is
a memory property outside a functional embedding; in the source every copied
field goes through the `Vector` copy constructor or `blockmodel.copy()`.) -/
theorem copy_value_equal_and_reset (p : Partition) :
    p.copy.block_assignment = p.block_assignment ∧
    p.copy.blockmodel = p.blockmodel ∧
    p.copy.block_degrees_out = p.block_degrees_out ∧
    p.copy.block_degrees_in = p.block_degrees_in ∧
    p.copy.block_degrees = p.block_degrees ∧
    p.copy.num_blocks = p.num_blocks ∧
    p.copy.block_reduction_rate = p.block_reduction_rate ∧
    p.copy.overall_entropy = p.overall_entropy ∧
    p.copy.num_blocks_to_merge = 0 :=
  ⟨rfl, rfl, rfl, rfl, rfl, rfl, rfl, rfl, rfl⟩

theorem length_updv {α : Type} (l : List α) (i : Nat) (x : α) :
    (updv l i x).length = l.length := by
  induction l generalizing i with
  | nil => rfl
  | cons a l ih => cases i <;> simp [updv, ih]

theorem nth_updv {α : Type} (d : α) (l : List α) (i j : Nat) (x : α) :
    nth d (updv l i x) j = if i = j ∧ j < l.length then x else nth d l j := by
  induction l generalizing i j with
  | nil => simp [updv, nth]
  | cons a l ih =>
    cases i with
    | zero => cases j <;> simp [updv, nth]
    | succ i =>
      cases j with
      | zero => simp [updv, nth]
      | succ j => simp [updv, nth, ih, Nat.succ_lt_succ_iff]

theorem nth_map_lt (l : List Int) (f : Int → Int) (i : Nat)
    (h : i < l.length) : nth 0 (l.map f) i = f (nth 0 l i) := by
  induction l generalizing i with
  | nil => simp at h
  | cons a l ih =>
    cases i with
    | zero => rfl
    | succ i => exact ih i (by simpa using h)

/-- C8: `merge_blocks(from_block, to_block)` rewrites exactly the assignment
entries equal to `from_block` to `to_block`, keeps every other entry and the
assignment length, and leaves the aggregate matrix, the three degree vectors
and the block count untouched. -/
theorem merge_blocks_relabel_and_frame (p : Partition) (from_block to_block : Int) :
    (p.merge_blocks from_block to_block).block_assignment.length =
      p.block_assignment.length ∧
    (∀ i : Nat, i < p.block_assignment.length →
      nth 0 (p.merge_blocks from_block to_block).block_assignment i =
        if nth 0 p.block_assignment i = from_block then to_block
        else nth 0 p.block_assignment i) ∧
    (p.merge_blocks from_block to_block).blockmodel = p.blockmodel ∧
    (p.merge_blocks from_block to_block).block_degrees_out = p.block_degrees_out ∧
    (p.merge_blocks from_block to_block).block_degrees_in = p.block_degrees_in ∧
    (p.merge_blocks from_block to_block).block_degrees = p.block_degrees ∧
    (p.merge_blocks from_block to_block).num_blocks = p.num_blocks := by
  refine ⟨List.length_map _ _, fun i hi => ?_, rfl, rfl, rfl, rfl, rfl⟩
  simpa [Partition.merge_blocks] using nth_map_lt p.block_assignment _ i hi

theorem merge_blocks_relabel_and_frame_witness :
    ((0 : Nat) < pThreeVertex.block_assignment.length) ∧
    nth 0 ((pThreeVertex.merge_blocks 0 5).block_assignment) 0 =
      (if nth 0 pThreeVertex.block_assignment 0 = 0 then 5
       else nth 0 pThreeVertex.block_assignment 0) :=
  ⟨by decide, (merge_blocks_relabel_and_frame pThreeVertex 0 5).2.1 0 (by decide)⟩

theorem length_seti (v : List Int) (i x : Int) : (seti v i x).length = v.length := by
  unfold seti; split
  · exact length_updv v i.toNat x
  · rfl

theorem length_markFold (l u : List Int) :
    (l.foldl (fun u m => seti u m 1) u).length = u.length := by
  induction l generalizing u with
  | nil => rfl
  | cons m l ih => rw [List.foldl_cons, ih, length_seti]

theorem nth_replicate_zero (n j : Nat) : nth (0 : Int) (List.replicate n 0) j = 0 := by
  induction n generalizing j with
  | zero => rfl
  | succ n ih => cases j <;> simp [List.replicate, nth, ih]

/-- After the marking loop of `clone_with_true_block_membership`, position `j`
of `uniques` holds 1 exactly when `j` occurs as a membership value. -/
theorem nth_markFold (l : List Int) (u : List Int) (j : Nat)
    (h : ∀ m ∈ l, 0 ≤ m ∧ m < (u.length : Int)) :
    nth 0 (l.foldl (fun u m => seti u m 1) u) j =
      if (j : Int) ∈ l then 1 else nth 0 u j := by
  induction l generalizing u with
  | nil => simp
  | cons m l ih =>
    have hm := h m (List.mem_cons_self m l)
    have hlen : (seti u m 1).length = u.length := length_seti u m 1
    rw [List.foldl_cons, ih (seti u m 1)
      (fun x hx => by rw [hlen]; exact h x (List.mem_cons_of_mem m hx))]
    by_cases hjl : (j : Int) ∈ l
    · simp [hjl]
    · have hset : nth 0 (seti u m 1) j =
          if m.toNat = j ∧ j < u.length then 1 else nth 0 u j := by
        unfold seti
        rw [if_pos hm.1]
        exact nth_updv 0 u m.toNat j 1
      by_cases hjm : (j : Int) = m
      · have h1 : m.toNat = j := by omega
        have h2 : j < u.length := by omega
        simp [hjl, hjm, hset, h1, h2]
      · have h1 : ¬ (m.toNat = j ∧ j < u.length) := by
          rintro ⟨h1, -⟩; omega
        simp [hjl, hjm, hset, h1]

theorem countOnes_aux (u : List Int) (acc : Int) :
    u.foldl (fun acc x => if x = 1 then acc + 1 else acc) acc =
      acc + (u.countP (fun x => x == 1) : Int) := by
  induction u generalizing acc with
  | nil => simp [List.countP_nil]
  | cons a u ih =>
    rw [List.foldl_cons, ih, List.countP_cons]
    by_cases h : a = (1 : Int)
    · simp only [h, if_pos rfl, beq_self_eq_true, if_true]
      push_cast
      ring
    · simp [h]

theorem countOnes_eq_countP (u : List Int) :
    countOnes u = (u.countP (fun x => x == 1) : Int) := by
  unfold countOnes; rw [countOnes_aux]; ring

/-- Counting entries of a list via its positions. -/
theorem countP_eq_countP_range (p : Int → Bool) (u : List Int) :
    u.countP p = (List.range u.length).countP (fun j => p (nth 0 u j)) := by
  induction u with
  | nil => rfl
  | cons a u ih =>
    rw [List.length_cons, List.range_succ_eq_map, List.countP_cons,
      List.countP_cons, List.countP_map]
    have : (List.range u.length).countP ((fun j => p (nth 0 (a :: u) j)) ∘ Nat.succ)
        = (List.range u.length).countP (fun j => p (nth 0 u j)) :=
      List.countP_congr (fun x _ => Iff.rfl)
    simp [nth, this, ih, Nat.add_comm]

theorem countP_or_disjoint {β : Type} (l : List β) (p q : β → Bool)
    (h : ∀ x ∈ l, ¬(p x = true ∧ q x = true)) :
    l.countP (fun x => p x || q x) = l.countP p + l.countP q := by
  induction l with
  | nil => rfl
  | cons a l ih =>
    have ha := h a (List.mem_cons_self a l)
    rw [List.countP_cons, List.countP_cons, List.countP_cons,
      ih (fun x hx => h x (List.mem_cons_of_mem a hx))]
    cases hp : p a <;> cases hq : q a <;> simp [hp, hq] at ha ⊢ <;> omega

theorem countP_eq_single (n : Nat) (a : Int) (h0 : 0 ≤ a) (hn : a < (n : Int)) :
    (List.range n).countP (fun (j : Nat) => decide ((j : Int) = a)) = 1 := by
  have : (List.range n).countP (fun (j : Nat) => decide ((j : Int) = a)) =
      (List.range n).countP (fun (j : Nat) => j == a.toNat) := by
    refine List.countP_congr (fun x _ => ?_)
    simp only [decide_eq_true_eq, beq_iff_eq]
    omega
  rw [this]
  exact List.count_eq_one_of_mem (List.nodup_range n)
    (List.mem_range.2 (by omega))

/-- Number of positions below `n` that occur in a duplicate-free list of
in-range values. -/
theorem countP_mem_range (d : List Int) (n : Nat) (hd : d.Nodup)
    (hb : ∀ m ∈ d, 0 ≤ m ∧ m < (n : Int)) :
    (List.range n).countP (fun (j : Nat) => decide ((j : Int) ∈ d)) = d.length := by
  induction d with
  | nil => simp
  | cons a d ih =>
    have hnd := List.nodup_cons.1 hd
    have step : (List.range n).countP (fun (j : Nat) => decide ((j : Int) ∈ a :: d)) =
        (List.range n).countP
          (fun (j : Nat) => decide ((j : Int) = a) || decide ((j : Int) ∈ d)) :=
      List.countP_congr (fun x _ => by simp [List.mem_cons])
    rw [step, countP_or_disjoint _ _ _
      (fun x _ hx => hnd.1 (by
        simp only [decide_eq_true_eq] at hx
        exact hx.1 ▸ hx.2)),
      countP_eq_single n a (hb a (List.mem_cons_self a d)).1
        (hb a (List.mem_cons_self a d)).2,
      ih hnd.2 (fun m hm => hb m (List.mem_cons_of_mem a hm)), List.length_cons,
      Nat.add_comm]

/-- C9: `clone_with_true_block_membership` sets the new partition's
`num_blocks` to the number of distinct membership values actually present in
the (not necessarily contiguous) membership vector, via presence marks over
the full index range of the vector. -/
theorem clone_with_true_block_membership_counts_distinct (p : Partition)
    (neighbors : List (List (Int × Int))) (tbm : List Int)
    (h : ∀ m ∈ tbm, 0 ≤ m ∧ m < (tbm.length : Int)) :
    (p.clone_with_true_block_membership neighbors tbm).num_blocks =
      (tbm.dedup.length : Int) := by
  show countOnes (tbm.foldl (fun u m => seti u m 1)
    (List.replicate tbm.length 0)) = (tbm.dedup.length : Int)
  set uniques := tbm.foldl (fun u m => seti u m 1)
    (List.replicate tbm.length 0) with huniq
  have hlen : uniques.length = tbm.length := by
    rw [huniq, length_markFold, List.length_replicate]
  have hnth : ∀ j : Nat, nth 0 uniques j = if (j : Int) ∈ tbm then 1 else 0 :=
    fun j => by
      rw [huniq, nth_markFold tbm _ j
        (by rw [List.length_replicate]; exact h), nth_replicate_zero]
  rw [countOnes_eq_countP, countP_eq_countP_range, hlen]
  have step1 : (List.range tbm.length).countP (fun j => nth 0 uniques j == 1) =
      (List.range tbm.length).countP (fun (j : Nat) => decide ((j : Int) ∈ tbm)) :=
    List.countP_congr (fun x _ => by
      rw [hnth x]
      by_cases hc : (x : Int) ∈ tbm <;> simp [hc])
  have step2 : (List.range tbm.length).countP
        (fun (j : Nat) => decide ((j : Int) ∈ tbm)) =
      (List.range tbm.length).countP
        (fun (j : Nat) => decide ((j : Int) ∈ tbm.dedup)) :=
    List.countP_congr (fun x _ => by simp [List.mem_dedup])
  rw [step1, step2, countP_mem_range tbm.dedup tbm.length (List.nodup_dedup tbm)
    (fun m hm => h m (List.mem_dedup.1 hm))]

theorem clone_with_true_block_membership_counts_distinct_witness :
    (∀ m ∈ [(0 : Int), 2, 2], 0 ≤ m ∧ m < (([(0 : Int), 2, 2]).length : Int)) ∧
    (pThreeVertex.clone_with_true_block_membership [] [0, 2, 2]).num_blocks =
      (([(0 : Int), 2, 2]).dedup.length : Int) :=
  ⟨by decide, clone_with_true_block_membership_counts_distinct pThreeVertex []
    [0, 2, 2] (by decide)⟩

/-- Effect of the inner loop of `initialize_edge_counts` on
`block_degrees_out` alone: `block_degrees_out[block_assignment[v]] += weight`
per adjacency row entry. -/
def outFoldRow (assign : List Int) (v : Nat) (d : List Int)
    (rows : List (Int × Int)) : List Int :=
  rows.foldl (fun d r => bump d (geti assign v) r.2) d

/-- Effect of the full vertex loop of `initialize_edge_counts` on
`block_degrees_out` alone. -/
def outFold (assign : List Int) :
    List (List (Int × Int)) → Nat → List Int → List Int
  | [], _, d => d
  | rows :: rest, v, d => outFold assign rest (v + 1) (outFoldRow assign v d rows)

/-- Effect of the inner loop on `block_degrees_in` alone:
`block_degrees_in[neighbor] += weight` (partition.cpp line 21). -/
def inFoldRow (d : List Int) (rows : List (Int × Int)) : List Int :=
  rows.foldl (fun d r => bump d r.1 r.2) d

/-- Effect of the full vertex loop on `block_degrees_in` alone. -/
def inFold : List (List (Int × Int)) → List Int → List Int
  | [], d => d
  | rows :: rest, d => inFold rest (inFoldRow d rows)

/-- Effect of the inner loop on the aggregate matrix alone. -/
def matFoldRow (assign : List Int) (v : Nat) (M : List (List Int))
    (rows : List (Int × Int)) : List (List Int) :=
  rows.foldl (fun M r => matAdd M (geti assign v) (geti assign r.1) r.2) M

/-- Effect of the full vertex loop on the aggregate matrix alone. -/
def matFold (assign : List Int) :
    List (List (Int × Int)) → Nat → List (List Int) → List (List Int)
  | [], _, M => M
  | rows :: rest, v, M => matFold assign rest (v + 1) (matFoldRow assign v M rows)

theorem initStep_fold_proj (assign : List Int) (v : Nat)
    (rows : List (Int × Int)) (st : List (List Int) × List Int × List Int) :
    rows.foldl (initStep assign v) st =
      (matFoldRow assign v st.1 rows, outFoldRow assign v st.2.1 rows,
       inFoldRow st.2.2 rows) := by
  induction rows generalizing st with
  | nil => rfl
  | cons r rows ih =>
    rw [List.foldl_cons, ih]
    rfl

theorem initPass_proj (assign : List Int) (rest : List (List (Int × Int)))
    (v : Nat) (st : List (List Int) × List Int × List Int) :
    initPass assign rest v st =
      (matFold assign rest v st.1, outFold assign rest v st.2.1,
       inFold rest st.2.2) := by
  induction rest generalizing v st with
  | nil => rfl
  | cons rows rest ih =>
    rw [initPass, ih, initStep_fold_proj]
    rfl

theorem length_bump (d : List Int) (i w : Int) : (bump d i w).length = d.length :=
  length_seti d i (geti d i + w)

theorem nth_bump (d : List Int) (i w : Int) (j : Nat) :
    nth 0 (bump d i w) j =
      nth 0 d j + (if 0 ≤ i ∧ i.toNat = j ∧ j < d.length then w else 0) := by
  unfold bump seti geti
  by_cases h0 : 0 ≤ i
  · rw [if_pos h0, if_pos h0, nth_updv]
    by_cases hc : i.toNat = j ∧ j < d.length
    · rw [if_pos hc, if_pos ⟨h0, hc.1, hc.2⟩, hc.1]
    · rw [if_neg hc, if_neg (fun hh => hc ⟨hh.2.1, hh.2.2⟩), Int.add_zero]
  · rw [if_neg h0, if_neg (fun hh => h0 hh.1), Int.add_zero]

theorem length_outFoldRow (assign : List Int) (v : Nat) (d : List Int)
    (rows : List (Int × Int)) : (outFoldRow assign v d rows).length = d.length := by
  induction rows generalizing d with
  | nil => rfl
  | cons r rows ih => rw [outFoldRow, List.foldl_cons, ← outFoldRow, ih, length_bump]

theorem length_outFold (assign : List Int) (rest : List (List (Int × Int)))
    (v : Nat) (d : List Int) : (outFold assign rest v d).length = d.length := by
  induction rest generalizing v d with
  | nil => rfl
  | cons rows rest ih => rw [outFold, ih, length_outFoldRow]

theorem length_inFoldRow (d : List Int) (rows : List (Int × Int)) :
    (inFoldRow d rows).length = d.length := by
  induction rows generalizing d with
  | nil => rfl
  | cons r rows ih => rw [inFoldRow, List.foldl_cons, ← inFoldRow, ih, length_bump]

theorem length_inFold (rest : List (List (Int × Int))) (d : List Int) :
    (inFold rest d).length = d.length := by
  induction rest generalizing d with
  | nil => rfl
  | cons rows rest ih => rw [inFold, ih, length_inFoldRow]

/-- The increment the out-degree pass adds at a position does not depend on
the starting vector (only on its length). -/
theorem outFoldRow_diff (assign : List Int) (v : Nat) (rows : List (Int × Int))
    (d e : List Int) (h : d.length = e.length) (j : Nat) :
    nth 0 (outFoldRow assign v d rows) j - nth 0 d j =
      nth 0 (outFoldRow assign v e rows) j - nth 0 e j := by
  induction rows generalizing d e with
  | nil => simp [outFoldRow]
  | cons r rows ih =>
    show nth 0 (outFoldRow assign v (bump d (geti assign (v : Int)) r.2) rows) j -
        nth 0 d j =
      nth 0 (outFoldRow assign v (bump e (geti assign (v : Int)) r.2) rows) j -
        nth 0 e j
    have hd := nth_bump d (geti assign v) r.2 j
    have he := nth_bump e (geti assign v) r.2 j
    rw [h] at hd
    have := ih (bump d (geti assign v) r.2) (bump e (geti assign v) r.2)
      (by rw [length_bump, length_bump, h])
    omega

theorem outFold_diff (assign : List Int) (rest : List (List (Int × Int)))
    (v : Nat) (d e : List Int) (h : d.length = e.length) (j : Nat) :
    nth 0 (outFold assign rest v d) j - nth 0 d j =
      nth 0 (outFold assign rest v e) j - nth 0 e j := by
  induction rest generalizing v d e with
  | nil => simp [outFold]
  | cons rows rest ih =>
    rw [outFold, outFold]
    have hrow := outFoldRow_diff assign v rows d e h j
    have := ih (v + 1) (outFoldRow assign v d rows) (outFoldRow assign v e rows)
      (by rw [length_outFoldRow, length_outFoldRow, h])
    omega

theorem inFoldRow_diff (rows : List (Int × Int)) (d e : List Int)
    (h : d.length = e.length) (j : Nat) :
    nth 0 (inFoldRow d rows) j - nth 0 d j =
      nth 0 (inFoldRow e rows) j - nth 0 e j := by
  induction rows generalizing d e with
  | nil => simp [inFoldRow]
  | cons r rows ih =>
    show nth 0 (inFoldRow (bump d r.1 r.2) rows) j - nth 0 d j =
      nth 0 (inFoldRow (bump e r.1 r.2) rows) j - nth 0 e j
    have hd := nth_bump d r.1 r.2 j
    have he := nth_bump e r.1 r.2 j
    rw [h] at hd
    have := ih (bump d r.1 r.2) (bump e r.1 r.2)
      (by rw [length_bump, length_bump, h])
    omega

theorem inFold_diff (rest : List (List (Int × Int))) (d e : List Int)
    (h : d.length = e.length) (j : Nat) :
    nth 0 (inFold rest d) j - nth 0 d j =
      nth 0 (inFold rest e) j - nth 0 e j := by
  induction rest generalizing d e with
  | nil => simp [inFold]
  | cons rows rest ih =>
    rw [inFold, inFold]
    have hrow := inFoldRow_diff rows d e h j
    have := ih (inFoldRow d rows) (inFoldRow e rows)
      (by rw [length_inFoldRow, length_inFoldRow, h])
    omega

theorem nth_vecAdd (a b : List Int) (h : a.length = b.length) (j : Nat) :
    nth 0 (vecAdd a b) j = nth 0 a j + nth 0 b j := by
  induction a generalizing b j with
  | nil =>
    cases b with
    | nil => simp [vecAdd, nth]
    | cons y b => simp at h
  | cons x a ih =>
    cases b with
    | nil => simp at h
    | cons y b =>
      cases j with
      | zero => simp [vecAdd, nth]
      | succ j =>
        have := ih b (by simpa using h) j
        simpa [vecAdd, nth] using this

/-- C10: `initialize_edge_counts` reallocates the blockmodel afresh but never
resets the degree vectors, so running it twice from a freshly constructed
partition (degree vectors zeroed) reproduces the blockmodel exactly while
every degree entry doubles.  The in-bounds hypotheses restrict the statement
to inputs on which every C++ vector access is in range. -/
theorem initialize_edge_counts_twice_doubles_degrees (p : Partition)
    (neighbors : List (List (Int × Int)))
    (hout : p.block_degrees_out = List.replicate p.num_blocks.toNat 0)
    (hin : p.block_degrees_in = List.replicate p.num_blocks.toNat 0)
    (hassign : ∀ b ∈ p.block_assignment, 0 ≤ b ∧ b < p.num_blocks)
    (hlen : p.block_assignment.length = neighbors.length)
    (hnbr : ∀ row ∈ neighbors, ∀ e ∈ row,
      0 ≤ e.1 ∧ e.1 < (neighbors.length : Int) ∧ e.1 < p.num_blocks) :
    ((p.initialize_edge_counts neighbors).initialize_edge_counts
        neighbors).blockmodel =
      (p.initialize_edge_counts neighbors).blockmodel ∧
    (∀ j : Nat,
      nth 0 ((p.initialize_edge_counts neighbors).initialize_edge_counts
          neighbors).block_degrees_out j =
        2 * nth 0 (p.initialize_edge_counts neighbors).block_degrees_out j) ∧
    (∀ j : Nat,
      nth 0 ((p.initialize_edge_counts neighbors).initialize_edge_counts
          neighbors).block_degrees_in j =
        2 * nth 0 (p.initialize_edge_counts neighbors).block_degrees_in j) ∧
    (∀ j : Nat,
      nth 0 ((p.initialize_edge_counts neighbors).initialize_edge_counts
          neighbors).block_degrees j =
        2 * nth 0 (p.initialize_edge_counts neighbors).block_degrees j) := by
  have egen_out : ∀ q : Partition, (q.initialize_edge_counts
        neighbors).block_degrees_out =
      outFold q.block_assignment neighbors 0 q.block_degrees_out := fun q => by
    simp [Partition.initialize_edge_counts, initPass_proj]
  have egen_in : ∀ q : Partition, (q.initialize_edge_counts
        neighbors).block_degrees_in = inFold neighbors q.block_degrees_in :=
    fun q => by simp [Partition.initialize_edge_counts, initPass_proj]
  have egen_mat : ∀ q : Partition, (q.initialize_edge_counts
        neighbors).blockmodel =
      matFold q.block_assignment neighbors 0 (zeroMatrix q.num_blocks.toNat) :=
    fun q => by simp [Partition.initialize_edge_counts, initPass_proj]
  have egen_deg : ∀ q : Partition, (q.initialize_edge_counts
        neighbors).block_degrees =
      vecAdd (q.initialize_edge_counts neighbors).block_degrees_out
        (q.initialize_edge_counts neighbors).block_degrees_in := fun q => by
    simp [Partition.initialize_edge_counts, initPass_proj]
  have ea : (p.initialize_edge_counts neighbors).block_assignment =
      p.block_assignment := rfl
  have en : (p.initialize_edge_counts neighbors).num_blocks = p.num_blocks := rfl
  have lout : (p.initialize_edge_counts neighbors).block_degrees_out.length =
      p.block_degrees_out.length := by rw [egen_out p, length_outFold]
  have lin : (p.initialize_edge_counts neighbors).block_degrees_in.length =
      p.block_degrees_in.length := by rw [egen_in p, length_inFold]
  have hout0 : ∀ j : Nat, nth 0 p.block_degrees_out j = 0 := fun j => by
    rw [hout, nth_replicate_zero]
  have hin0 : ∀ j : Nat, nth 0 p.block_degrees_in j = 0 := fun j => by
    rw [hin, nth_replicate_zero]
  have hdout : ∀ j : Nat,
      nth 0 ((p.initialize_edge_counts neighbors).initialize_edge_counts
        neighbors).block_degrees_out j =
      2 * nth 0 (p.initialize_edge_counts neighbors).block_degrees_out j := by
    intro j
    have hdiff := outFold_diff p.block_assignment neighbors 0
      (p.initialize_edge_counts neighbors).block_degrees_out
      p.block_degrees_out lout j
    have h1 := egen_out (p.initialize_edge_counts neighbors)
    rw [ea] at h1
    have h2 := egen_out p
    rw [← h1, ← h2] at hdiff
    have h0 := hout0 j
    omega
  have hdin : ∀ j : Nat,
      nth 0 ((p.initialize_edge_counts neighbors).initialize_edge_counts
        neighbors).block_degrees_in j =
      2 * nth 0 (p.initialize_edge_counts neighbors).block_degrees_in j := by
    intro j
    have hdiff := inFold_diff neighbors
      (p.initialize_edge_counts neighbors).block_degrees_in
      p.block_degrees_in lin j
    have h1 := egen_in (p.initialize_edge_counts neighbors)
    have h2 := egen_in p
    rw [← h1, ← h2] at hdiff
    have h0 := hin0 j
    omega
  refine ⟨?_, hdout, hdin, ?_⟩
  · have h1 := egen_mat (p.initialize_edge_counts neighbors)
    rw [ea, en] at h1
    rw [h1, ← egen_mat p]
  · intro j
    have l2 : (p.initialize_edge_counts neighbors).block_degrees_out.length =
        (p.initialize_edge_counts neighbors).block_degrees_in.length := by
      rw [lout, lin, hout, hin]
    have l1 : ((p.initialize_edge_counts neighbors).initialize_edge_counts
          neighbors).block_degrees_out.length =
        ((p.initialize_edge_counts neighbors).initialize_edge_counts
          neighbors).block_degrees_in.length := by
      rw [egen_out, egen_in, length_outFold, length_inFold]
      exact l2
    rw [egen_deg (p.initialize_edge_counts neighbors), egen_deg p,
      nth_vecAdd _ _ l1 j, nth_vecAdd _ _ l2 j, hdout j, hdin j]
    ring

/-- Two vertices in two singleton blocks with one edge `0 → 1` of weight 1,
satisfying every in-bounds hypothesis of
`initialize_edge_counts_twice_doubles_degrees`. -/
def pFresh : Partition :=
  { num_blocks := 2, block_assignment := [0, 1],
    blockmodel := [[0, 0], [0, 0]],
    block_degrees_out := [0, 0], block_degrees_in := [0, 0],
    block_degrees := [0, 0], block_reduction_rate := 1/2,
    num_blocks_to_merge := 0, overall_entropy := 0 }

theorem initialize_edge_counts_twice_doubles_degrees_witness :
    (pFresh.block_degrees_out = List.replicate pFresh.num_blocks.toNat 0 ∧
     pFresh.block_degrees_in = List.replicate pFresh.num_blocks.toNat 0 ∧
     (∀ b ∈ pFresh.block_assignment, 0 ≤ b ∧ b < pFresh.num_blocks) ∧
     pFresh.block_assignment.length = ([[((1 : Int), (1 : Int))], []]).length ∧
     (∀ row ∈ [[((1 : Int), (1 : Int))], []], ∀ e ∈ row,
       0 ≤ e.1 ∧ e.1 < ((([[((1 : Int), (1 : Int))], []]).length : Int)) ∧
       e.1 < pFresh.num_blocks)) ∧
    (∀ j : Nat,
      nth 0 ((pFresh.initialize_edge_counts
          [[((1 : Int), (1 : Int))], []]).initialize_edge_counts
          [[((1 : Int), (1 : Int))], []]).block_degrees_out j =
        2 * nth 0 (pFresh.initialize_edge_counts
          [[((1 : Int), (1 : Int))], []]).block_degrees_out j) :=
  ⟨⟨by decide, by decide, by decide, by decide, by decide⟩,
   (initialize_edge_counts_twice_doubles_degrees pFresh
     [[((1 : Int), (1 : Int))], []] (by decide) (by decide) (by decide)
     (by decide) (by decide)).2.1⟩
